import Mathlib

/-!
Verification of the id-prefix resolution core (`lib/src/id_prefix.rs`).

The embedding models identifier keys as lists of natural-number bytes
(an `ObjectId`'s `as_bytes()`), ordered by unsigned lexicographic byte
comparison (the `Ord` the source relies on), and hex-prefix queries as
lists of hexadecimal digits (nibbles).  The index `IdIndex` is the flat
sorted list of (key, value) pairs of the source.
-/

namespace IdPrefix

/-- A key is a byte string: the `as_bytes()` view of an `ObjectId`. -/
abbrev Key := List Nat

/-- Unsigned lexicographic comparison of byte strings, the `Ord` instance
of Rust byte slices used by `k0.cmp(k1)` and `k.as_bytes() < min_bytes`
in the source: elementwise on bytes, a strict prefix is less. -/
def bytesLt : List Nat → List Nat → Bool
  | [], [] => false
  | [], _ :: _ => true
  | _ :: _, [] => false
  | a :: as, b :: bs => if a < b then true else if b < a then false else bytesLt as bs

/-- Non-strict counterpart of `bytesLt`. -/
def bytesLe (a b : List Nat) : Bool := !bytesLt b a

/-- The hexadecimal digits of a byte string, two nibbles per byte,
high nibble first (`iter_half_bytes` of `backend.rs`). -/
def hexDigits : List Nat → List Nat
  | [] => []
  | b :: bs => b / 16 :: b % 16 :: hexDigits bs

/-- Length of the longest common leading run of two lists
(`zip`/`take_while`/`count` over paired elements). -/
def commonLen : List Nat → List Nat → Nat
  | a :: as, b :: bs => if a = b then commonLen as bs + 1 else 0
  | _, _ => 0

/-- Modelled from the spec: `backend::common_hex_len` is declared in
`backend.rs` (outside the provided source fragment); per the Identifier
contract it computes the number of leading hex digits two identifiers
share, nibble-granular and capped at the shorter operand's digit length. -/
def commonHexLen (a b : List Nat) : Nat := commonLen (hexDigits a) (hexDigits b)

/-- A hex-prefix query: a sequence of 0..N hexadecimal digits, possibly of
odd length (the digit view of `crate::index::HexPrefix`). -/
abbrev HexQuery := List Nat

/-- All digits of a query are hexadecimal (below 16).  The `HexPrefix`
constructor, external to this core, guarantees this for every query value
handed to the index operations. -/
abbrev ValidQuery (q : HexQuery) : Prop := ∀ d ∈ q, d < 16

/-- Packs a digit list into bytes, two digits per byte; a trailing
unpaired digit cannot occur on the padded input it is applied to. -/
def packBytes : List Nat → List Nat
  | h :: l :: rest => (h * 16 + l) :: packBytes rest
  | _ => []

/-- Modelled from the spec: `HexPrefix::min_prefix_bytes` is declared in
`crate::index` (outside the provided source fragment); per the Prefix
Query contract it is the minimal byte sequence that lower-bounds all
identifiers beginning with the query's digits — the digits padded with a
zero low nibble to a whole number of bytes. -/
def minPrefixBytes (q : HexQuery) : List Nat :=
  packBytes (if q.length % 2 = 0 then q else q ++ [0])

/-- Modelled from the spec: `HexPrefix::matches` is declared in
`crate::index` (outside the provided source fragment); per the Prefix
Query contract it tests whether an identifier's digits begin with the
query's digits, an odd trailing digit matching only the high nibble of
the corresponding byte. -/
def hpMatches (q : HexQuery) (k : Key) : Bool := q.isPrefixOf (hexDigits k)

/-- The three-way prefix-resolution outcome (`crate::index::PrefixResolution`). -/
inductive PrefixResolution (T : Type) where
  | NoMatch : PrefixResolution T
  | SingleMatch : T → PrefixResolution T
  | AmbiguousMatch : PrefixResolution T
deriving DecidableEq

/-- The number of leading elements satisfying `p`.  Rust's
`slice::partition_point` performs a binary search and is documented to
return exactly the length of the true-prefix whenever the slice is
partitioned with respect to `p`, which the sorted-index invariant
guarantees at both call sites in the source. -/
def partitionPoint {α : Type} (p : α → Bool) (l : List α) : Nat :=
  (l.takeWhile p).length

/-- The index: a flat list of (key, value) entries (`IdIndex<K, V>`). -/
abbrev IdIndex (V : Type) := List (Key × V)

/-- The sorted-ascending-by-key invariant established by `from_vec`. -/
abbrev SortedByKey {V : Type} (idx : IdIndex V) : Prop :=
  List.Pairwise (fun a b => bytesLe a.1 b.1 = true) idx

/-- Creates the index from the given entries by sorting them by key
(`IdIndex::from_vec`, `vec.sort_unstable_by(|(k0, _), (k1, _)| k0.cmp(k1))`). -/
def fromVec {V : Type} (vec : List (Key × V)) : IdIndex V :=
  vec.mergeSort (fun a b => bytesLe a.1 b.1)

/-- Iterates over entries with the given prefix
(`IdIndex::resolve_prefix_range`): binary-search to the first entry whose
key bytes are not below the query's byte-aligned lower bound, then take
entries while their key matches the query. -/
def resolvePrefixRange {V : Type} (idx : IdIndex V) (q : HexQuery) : List (Key × V) :=
  (idx.drop (partitionPoint (fun e => bytesLt e.1 (minPrefixBytes q)) idx)).takeWhile
    (fun e => hpMatches q e.1)

/-- Looks up entries with the given prefix and collects mapped values when
the matched entries have unambiguous keys (`IdIndex::resolve_prefix_with`):
peek the first entry's key, then collect `Option`s that are `some` exactly
for entries sharing that key — `collect::<Option<Vec<_>>>` is `mapM` into
`Option`. -/
def resolvePrefixWith {V U : Type} (idx : IdIndex V) (q : HexQuery)
    (valueMapper : V → U) : PrefixResolution (List U) :=
  match resolvePrefixRange idx q with
  | [] => PrefixResolution.NoMatch
  | (firstKey, _) :: _ =>
      match (resolvePrefixRange idx q).mapM
          (fun e => if e.1 = firstKey then some (valueMapper e.2) else none) with
      | some entries => PrefixResolution.SingleMatch entries
      | none => PrefixResolution.AmbiguousMatch

/-- Looks up entries with the given prefix, collecting the values
themselves (`IdIndex::resolve_prefix`, the clone mapper). -/
def resolvePrefix {V : Type} (idx : IdIndex V) (q : HexQuery) :
    PrefixResolution (List V) :=
  resolvePrefixWith idx q (fun v => v)

/-- Whether at least one entry has exactly this key (`IdIndex::has_key`).
Rust's `binary_search_by(...).is_ok()` on a slice sorted by key succeeds
exactly when some element compares equal to the probe. -/
def hasKey {V : Type} (idx : IdIndex V) (key : Key) : Bool :=
  idx.any (fun e => e.1 == key)

/-- The entry just left of `key`'s insertion position
(`let left = pos.checked_sub(1).map(|p| &self.0[p])` in
`IdIndex::shortest_unique_prefix_len`). -/
def suplLeft {V : Type} (idx : IdIndex V) (key : Key) : Option (Key × V) :=
  match partitionPoint (fun e => bytesLt e.1 key) idx with
  | 0 => none
  | p + 1 => idx[p]?

/-- The first entry at or right of `key`'s insertion position whose key
differs (`let right = self.0[pos..].iter().find(|(k, _)| k != key)` in
`IdIndex::shortest_unique_prefix_len`). -/
def suplRight {V : Type} (idx : IdIndex V) (key : Key) : Option (Key × V) :=
  (idx.drop (partitionPoint (fun e => bytesLt e.1 key) idx)).find? (fun e => !(e.1 == key))

/-- The at most two neighbor entries inspected by
`IdIndex::shortest_unique_prefix_len` (`itertools::chain(left, right)`). -/
def suplNeighbors {V : Type} (idx : IdIndex V) (key : Key) : List (Key × V) :=
  (suplLeft idx key).toList ++ (suplRight idx key).toList

/-- Shortest length, in hexadecimal digits, of a prefix of `key` that
disambiguates it from every other key in the index
(`IdIndex::shortest_unique_prefix_len`): one more digit than the longest
common hex run with either sorted neighbor, `0` when neither exists. -/
def shortestUniquePrefixLen {V : Type} (idx : IdIndex V) (key : Key) : Nat :=
  ((suplNeighbors idx key).map (fun e => commonHexLen key e.1 + 1)).foldr max 0

/-- All bytes of a key are below 256: the byte view of a well-formed
identifier, whose hexadecimal rendering uses two digits per byte. -/
abbrev ValidKey (k : Key) : Prop := ∀ b ∈ k, b < 256

/-- The maximum key of a list under byte order, `none` for the empty list. -/
def keyMax? : List Key → Option Key
  | [] => none
  | x :: xs =>
      match keyMax? xs with
      | none => some x
      | some y => if bytesLt x y then some y else some x

/-- The minimum key of a list under byte order, `none` for the empty list. -/
def keyMin? : List Key → Option Key
  | [] => none
  | x :: xs =>
      match keyMin? xs with
      | none => some x
      | some y => if bytesLt y x then some y else some x

/-- Stated from the spec's words, for comparison against the
implementation: the largest key in the index strictly less than `key`. -/
def maxBelow {V : Type} (idx : IdIndex V) (key : Key) : Option Key :=
  keyMax? ((idx.map Prod.fst).filter (fun x => bytesLt x key))

/-- Stated from the spec's words, for comparison against the
implementation: the smallest key in the index strictly greater than
`key` (entries equal to `key` are skipped). -/
def minAbove {V : Type} (idx : IdIndex V) (key : Key) : Option Key :=
  keyMin? ((idx.map Prod.fst).filter (fun x => bytesLt key x))

/-- Stated from the spec's words, for comparison against the
implementation: the maximum, over the at most two existing semantic
neighbors of `key` (its largest strictly-smaller and smallest
strictly-greater index keys), of one plus the longest common leading
hex-digit run with `key`; `0` when no such other-keyed neighbor exists. -/
def suplSpec {V : Type} (idx : IdIndex V) (key : Key) : Nat :=
  (((maxBelow idx key).toList ++ (minAbove idx key).toList).map
    (fun n => commonHexLen key n + 1)).foldr max 0

/-- The index built by the source test `test_id_index_resolve_prefix`
(keys 0000, 0099, 0099, 0aaa, 0aab with values 0..4), given directly in
its sorted form. -/
def exampleIdx : IdIndex Nat :=
  [([0x00, 0x00], 0), ([0x00, 0x99], 1), ([0x00, 0x99], 2),
    ([0x0a, 0xaa], 3), ([0x0a, 0xab], 4)]

/-- The first index built by the source test
`test_id_index_shortest_unique_prefix_len` (keys ab, acd0, acd0), given
directly in its sorted form. -/
def exampleIdx2 : IdIndex Nat :=
  [([0xab], 0), ([0xac, 0xd0], 1), ([0xac, 0xd0], 2)]

/-! Order lemmas for `bytesLt` and `bytesLe`. -/

theorem bytesLt_irrefl (a : List Nat) : bytesLt a a = false := by
  induction a with
  | nil => rfl
  | cons x xs ih => simp [bytesLt, ih]

theorem bytesLt_asymm : ∀ {a b : List Nat}, bytesLt a b = true → bytesLt b a = false
  | [], [], h => by simp [bytesLt] at h
  | [], _ :: _, _ => rfl
  | _ :: _, [], h => by simp [bytesLt] at h
  | x :: xs, y :: ys, h => by
    simp only [bytesLt] at h ⊢
    split_ifs at h ⊢ with h1 h2 h3 h4 <;> first | rfl | omega | exact bytesLt_asymm h

theorem bytesLt_conn : ∀ {a b : List Nat},
    bytesLt a b = false → bytesLt b a = false → a = b
  | [], [], _, _ => rfl
  | [], _ :: _, h, _ => by simp [bytesLt] at h
  | _ :: _, [], _, h => by simp [bytesLt] at h
  | x :: xs, y :: ys, h, h' => by
    simp only [bytesLt] at h h'
    split_ifs at h h' with h1 h2 <;> try omega
    have hx : x = y := by omega
    rw [hx, bytesLt_conn h h']

theorem bytesLt_trans : ∀ {a b c : List Nat},
    bytesLt a b = true → bytesLt b c = true → bytesLt a c = true
  | [], _ :: _, [], _, h => by simp [bytesLt] at h
  | [], [], _, h, _ => by simp [bytesLt] at h
  | [], _ :: _, _ :: _, _, _ => rfl
  | _ :: _, [], _, h, _ => by simp [bytesLt] at h
  | _ :: _, _ :: _, [], _, h => by simp [bytesLt] at h
  | x :: xs, y :: ys, z :: zs, h, h' => by
    simp only [bytesLt] at h h' ⊢
    split_ifs at h h' ⊢ with h1 h2 h3 h4 h5 h6 <;>
      first | rfl | omega | exact bytesLt_trans h h'

theorem bytesLe_refl (a : List Nat) : bytesLe a a = true := by
  simp [bytesLe, bytesLt_irrefl]

theorem bytesLe_of_lt {a b : List Nat} (h : bytesLt a b = true) : bytesLe a b = true := by
  simp [bytesLe, bytesLt_asymm h]

theorem bytesLt_eq_false_of_le {a b : List Nat} (h : bytesLe a b = true) :
    bytesLt b a = false := by
  simpa [bytesLe] using h

theorem bytesLe_of_not_lt {a b : List Nat} (h : bytesLt b a = false) : bytesLe a b = true := by
  simp [bytesLe, h]

theorem bytesLt_of_le_of_ne {a b : List Nat} (h : bytesLe a b = true) (hne : a ≠ b) :
    bytesLt a b = true := by
  cases hab : bytesLt a b with
  | true => rfl
  | false => exact absurd (bytesLt_conn hab (bytesLt_eq_false_of_le h)) hne

theorem bytesLe_trans {a b c : List Nat} (h1 : bytesLe a b = true) (h2 : bytesLe b c = true) :
    bytesLe a c = true := by
  have h1' := bytesLt_eq_false_of_le h1
  have h2' := bytesLt_eq_false_of_le h2
  apply bytesLe_of_not_lt
  cases hca : bytesLt c a with
  | false => rfl
  | true =>
    cases hbc : bytesLt b c with
    | true =>
      have := bytesLt_trans hbc hca
      rw [this] at h1'; cases h1'
    | false =>
      have hbc' : b = c := bytesLt_conn hbc h2'
      rw [← hbc'] at hca
      rw [hca] at h1'; cases h1'

theorem bytesLt_of_le_of_lt {a b c : List Nat} (h1 : bytesLe a b = true)
    (h2 : bytesLt b c = true) : bytesLt a c = true := by
  cases hab : bytesLt a b with
  | true => exact bytesLt_trans hab h2
  | false =>
    have : a = b := bytesLt_conn hab (bytesLt_eq_false_of_le h1)
    rw [this]; exact h2

theorem bytesLt_of_lt_of_le {a b c : List Nat} (h1 : bytesLt a b = true)
    (h2 : bytesLe b c = true) : bytesLt a c = true := by
  cases hbc : bytesLt b c with
  | true => exact bytesLt_trans h1 hbc
  | false =>
    have : b = c := bytesLt_conn hbc (bytesLt_eq_false_of_le h2)
    rw [← this]; exact h1

theorem bytesLe_total (a b : List Nat) : bytesLe a b = true ∨ bytesLe b a = true := by
  cases hab : bytesLt a b with
  | true => exact Or.inl (bytesLe_of_lt hab)
  | false => exact Or.inr (bytesLe_of_not_lt hab)

/-! Lemmas about `hexDigits`: the hex-digit view embeds the byte order. -/

theorem hexDigits_bytesLt : ∀ (a b : List Nat),
    bytesLt (hexDigits a) (hexDigits b) = bytesLt a b
  | [], [] => rfl
  | [], _ :: _ => rfl
  | _ :: _, [] => rfl
  | x :: xs, y :: ys => by
    have hx := Nat.div_add_mod x 16
    have hy := Nat.div_add_mod y 16
    have hxm : x % 16 < 16 := Nat.mod_lt _ (by omega)
    have hym : y % 16 < 16 := Nat.mod_lt _ (by omega)
    simp only [hexDigits, bytesLt]
    split_ifs with h1 h2 h3 h4 h5 h6 <;>
      first | rfl | omega | exact hexDigits_bytesLt xs ys

theorem hexDigits_bytesLe (a b : List Nat) :
    bytesLe (hexDigits a) (hexDigits b) = bytesLe a b := by
  simp [bytesLe, hexDigits_bytesLt]

theorem hexDigits_inj {a b : List Nat} (h : hexDigits a = hexDigits b) : a = b := by
  apply bytesLt_conn
  · rw [← hexDigits_bytesLt, h, bytesLt_irrefl]
  · rw [← hexDigits_bytesLt, h, bytesLt_irrefl]

theorem hexDigits_length (a : List Nat) : (hexDigits a).length = 2 * a.length := by
  induction a with
  | nil => rfl
  | cons x xs ih =>
    simp only [hexDigits, List.length_cons, ih]
    omega

theorem hexDigits_append (a b : List Nat) :
    hexDigits (a ++ b) = hexDigits a ++ hexDigits b := by
  induction a with
  | nil => rfl
  | cons x xs ih => simp [hexDigits, ih]

theorem validKey_hexDigits {k : Key} (hk : ValidKey k) : ∀ d ∈ hexDigits k, d < 16 := by
  induction k with
  | nil => intro d hd; cases hd
  | cons b bs ih =>
    intro d hd
    have hb : b < 256 := hk b (List.mem_cons_self b bs)
    rcases List.mem_cons.mp hd with rfl | hd'
    · omega
    · rcases List.mem_cons.mp hd' with rfl | hd''
      · omega
      · exact ih (fun x hx => hk x (List.mem_cons_of_mem _ hx)) d hd''

/-! Lemmas about `commonLen`. -/

theorem commonLen_le_left : ∀ (a b : List Nat), commonLen a b ≤ a.length
  | [], _ => Nat.le_refl _
  | _ :: _, [] => by simp [commonLen]
  | x :: xs, y :: ys => by
    simp only [commonLen, List.length_cons]
    split_ifs
    · exact Nat.succ_le_succ (commonLen_le_left xs ys)
    · omega

theorem commonLen_comm : ∀ (a b : List Nat), commonLen a b = commonLen b a
  | [], [] => rfl
  | [], _ :: _ => rfl
  | _ :: _, [] => rfl
  | x :: xs, y :: ys => by
    simp only [commonLen]
    split_ifs with h1 h2 <;> first | omega | rw [commonLen_comm xs ys]

theorem commonLen_of_leadingRun : ∀ {a b : List Nat}, a <+: b → commonLen a b = a.length
  | [], _, _ => rfl
  | x :: xs, b, h => by
    rcases b with _ | ⟨y, ys⟩
    · exact absurd (List.IsPrefix.length_le h) (by simp)
    · rcases (List.cons_prefix_cons).mp h with ⟨rfl, htail⟩
      simp [commonLen, commonLen_of_leadingRun htail]

theorem le_commonLen_of_leadingRun_both : ∀ {q a b : List Nat},
    q <+: a → q <+: b → q.length ≤ commonLen a b
  | [], _, _, _, _ => Nat.zero_le _
  | x :: q', a, b, ha, hb => by
    rcases a with _ | ⟨ya, as⟩
    · exact absurd (List.IsPrefix.length_le ha) (by simp)
    rcases b with _ | ⟨yb, bs⟩
    · exact absurd (List.IsPrefix.length_le hb) (by simp)
    rcases (List.cons_prefix_cons).mp ha with ⟨rfl, hta⟩
    rcases (List.cons_prefix_cons).mp hb with ⟨rfl, htb⟩
    simp [commonLen, Nat.succ_le_succ (le_commonLen_of_leadingRun_both hta htb)]

theorem commonLen_middle : ∀ {u v w : List Nat}, bytesLe u v = true → bytesLe v w = true →
    commonLen u w ≤ commonLen v w ∧ commonLen u w ≤ commonLen u v
  | [], _, _, _, _ => by simp [commonLen]
  | _ :: _, _, [], _, _ => by
    refine ⟨?_, ?_⟩ <;> simp [commonLen]
  | a :: u', v, c :: w', h1, h2 => by
    by_cases hac : a = c
    case neg =>
      refine ⟨?_, ?_⟩ <;> simp [commonLen, hac]
    subst hac
    rcases v with _ | ⟨b, v'⟩
    · simp [bytesLe, bytesLt] at h1
    simp only [bytesLe, bytesLt, Bool.not_eq_true'] at h1 h2
    by_cases hba : b < a
    · rw [if_pos hba] at h1; cases h1
    rw [if_neg hba] at h1
    by_cases hab : a < b
    · rw [if_pos hab] at h2; cases h2
    rw [if_neg hab] at h1
    rw [if_neg hab, if_neg hba] at h2
    have hab2 : a = b := by omega
    subst hab2
    have ih := commonLen_middle (u := u') (v := v') (w := w')
      (bytesLe_of_not_lt h1) (bytesLe_of_not_lt h2)
    simp only [commonLen, if_pos rfl, if_true]
    omega

/-! Lex-order and prefix interaction lemmas. -/

theorem bytesLe_of_prefix : ∀ {a b : List Nat}, a <+: b → bytesLe a b = true
  | [], b, _ => by cases b <;> simp [bytesLe, bytesLt]
  | x :: xs, b, h => by
    rcases b with _ | ⟨y, ys⟩
    · exact absurd (List.IsPrefix.length_le h) (by simp)
    · rcases (List.cons_prefix_cons).mp h with ⟨rfl, htail⟩
      have := bytesLe_of_prefix htail
      simp only [bytesLe, bytesLt, Bool.not_eq_true'] at this ⊢
      simp [this]

theorem prefix_of_le_le : ∀ {u v w : List Nat},
    u <+: w → bytesLe u v = true → bytesLe v w = true → u <+: v
  | [], _, _, _, _, _ => List.nil_prefix
  | x :: u', v, w, hp, h1, h2 => by
    rcases w with _ | ⟨z, w'⟩
    · exact absurd (List.IsPrefix.length_le hp) (by simp)
    rcases (List.cons_prefix_cons).mp hp with ⟨rfl, htail⟩
    rcases v with _ | ⟨y, v'⟩
    · simp [bytesLe, bytesLt] at h1
    simp only [bytesLe, bytesLt, Bool.not_eq_true'] at h1 h2
    by_cases hyx : y < x
    · rw [if_pos hyx] at h1; cases h1
    rw [if_neg hyx] at h1
    by_cases hxy : x < y
    · rw [if_pos hxy] at h2; cases h2
    rw [if_neg hxy] at h1
    rw [if_neg hxy, if_neg hyx] at h2
    have hxy2 : x = y := by omega
    exact (List.cons_prefix_cons).mpr
      ⟨hxy2, prefix_of_le_le htail (bytesLe_of_not_lt h1) (bytesLe_of_not_lt h2)⟩

/-! Generic list machinery: `takeWhile`, `dropWhile`, fold-max, `mapM`. -/

theorem drop_length_takeWhile {α : Type} (p : α → Bool) :
    ∀ (l : List α), l.drop (l.takeWhile p).length = l.dropWhile p
  | [] => rfl
  | x :: xs => by
    cases hp : p x <;>
      simp [List.takeWhile_cons, List.dropWhile_cons, hp, drop_length_takeWhile p xs]

theorem takeWhile_eq_filter_of_antitone {α : Type} {R : α → α → Prop} {p : α → Bool} :
    ∀ {l : List α}, List.Pairwise R l →
      (∀ a b, a ∈ l → b ∈ l → R a b → p b = true → p a = true) →
      l.takeWhile p = l.filter p
  | [], _, _ => rfl
  | x :: xs, hs, hmono => by
    rcases List.pairwise_cons.mp hs with ⟨hx, hxs⟩
    cases hp : p x
    · have hall : ∀ a ∈ xs, ¬ p a = true := by
        intro a ha hpa
        have := hmono x a (List.mem_cons_self _ _) (List.mem_cons_of_mem _ ha) (hx a ha) hpa
        rw [this] at hp; cases hp
      rw [List.takeWhile_cons, List.filter_cons, hp]
      simp only [Bool.false_eq_true, if_false]
      exact (List.filter_eq_nil_iff.mpr hall).symm
    · rw [List.takeWhile_cons, List.filter_cons, hp]
      simp only [if_true]
      rw [takeWhile_eq_filter_of_antitone hxs
        (fun a b ha hb => hmono a b (List.mem_cons_of_mem _ ha) (List.mem_cons_of_mem _ hb))]

theorem mem_dropWhile_ge {V : Type} {b : Key} :
    ∀ {idx : IdIndex V}, SortedByKey idx →
    ∀ e ∈ idx.dropWhile (fun x => bytesLt x.1 b), bytesLe b e.1 = true := by
  intro idx
  induction idx with
  | nil => intro _ e he; cases he
  | cons x xs ih =>
    intro hs e he
    rcases List.pairwise_cons.mp hs with ⟨hx, hxs⟩
    rw [List.dropWhile_cons] at he
    by_cases hp : bytesLt x.1 b = true
    · rw [if_pos hp] at he
      exact ih hxs e he
    · have hp' : bytesLt x.1 b = false := by simpa using hp
      rw [hp'] at he
      simp only [Bool.false_eq_true, if_false] at he
      have hbx : bytesLe b x.1 = true := bytesLe_of_not_lt hp'
      rcases List.mem_cons.mp he with rfl | he'
      · exact hbx
      · exact bytesLe_trans hbx (hx e he')

theorem le_foldr_max_of_mem : ∀ {l : List Nat} {x : Nat}, x ∈ l → x ≤ l.foldr max 0
  | [], x, h => by cases h
  | y :: ys, x, h => by
    simp only [List.foldr_cons]
    rcases List.mem_cons.mp h with rfl | h'
    · exact Nat.le_max_left _ _
    · exact Nat.le_trans (le_foldr_max_of_mem h') (Nat.le_max_right _ _)

theorem foldr_max_le_of_ub : ∀ {l : List Nat} {m : Nat}, (∀ x ∈ l, x ≤ m) → l.foldr max 0 ≤ m
  | [], _, _ => Nat.zero_le _
  | y :: ys, m, h => by
    simp only [List.foldr_cons]
    exact max_le (h y (List.mem_cons_self _ _))
      (foldr_max_le_of_ub fun x hx => h x (List.mem_cons_of_mem _ hx))

theorem foldr_max_eq_of_mem_of_ub {l : List Nat} {m : Nat} (hm : m ∈ l)
    (hub : ∀ x ∈ l, x ≤ m) : l.foldr max 0 = m :=
  Nat.le_antisymm (foldr_max_le_of_ub hub) (le_foldr_max_of_mem hm)

theorem mapM_option_eq_some_map {α β : Type} {f : α → Option β} {g : α → β} :
    ∀ {l : List α}, (∀ e ∈ l, f e = some (g e)) → l.mapM f = some (l.map g)
  | [], _ => rfl
  | x :: xs, h => by
    rw [List.mapM_cons, h x (List.mem_cons_self _ _),
      mapM_option_eq_some_map (fun e he => h e (List.mem_cons_of_mem _ he))]
    rfl

theorem mapM_option_eq_none {α β : Type} {f : α → Option β} :
    ∀ {l : List α} {e : α}, e ∈ l → f e = none → l.mapM f = none
  | [], e, he, _ => by cases he
  | x :: xs, e, he, hf => by
    rw [List.mapM_cons]
    rcases List.mem_cons.mp he with rfl | hmem
    · rw [hf]; rfl
    · cases hfx : f x with
      | none => rfl
      | some v => rw [mapM_option_eq_none hmem hf]; rfl

/-! Lemmas about `keyMax?` and `keyMin?`. -/

theorem keyMax?_mem : ∀ {ks : List Key} {m : Key}, keyMax? ks = some m → m ∈ ks
  | [], m, h => by cases h
  | x :: xs, m, h => by
    cases hk : keyMax? xs with
    | none =>
      simp only [keyMax?, hk] at h
      cases h
      exact List.mem_cons_self _ _
    | some y =>
      simp only [keyMax?, hk] at h
      split_ifs at h with hlt
      · cases h; exact List.mem_cons_of_mem _ (keyMax?_mem hk)
      · cases h; exact List.mem_cons_self _ _

theorem keyMin?_mem : ∀ {ks : List Key} {m : Key}, keyMin? ks = some m → m ∈ ks
  | [], m, h => by cases h
  | x :: xs, m, h => by
    cases hk : keyMin? xs with
    | none =>
      simp only [keyMin?, hk] at h
      cases h
      exact List.mem_cons_self _ _
    | some y =>
      simp only [keyMin?, hk] at h
      split_ifs at h with hlt
      · cases h; exact List.mem_cons_of_mem _ (keyMin?_mem hk)
      · cases h; exact List.mem_cons_self _ _

theorem keyMax?_ub : ∀ {ks : List Key} {x : Key}, x ∈ ks →
    ∃ m, keyMax? ks = some m ∧ bytesLe x m = true
  | [], x, h => by cases h
  | k :: ks', x, h => by
    cases hk : keyMax? ks' with
    | none =>
      rcases List.mem_cons.mp h with rfl | hx'
      · exact ⟨x, by simp [keyMax?, hk], bytesLe_refl x⟩
      · rcases keyMax?_ub hx' with ⟨m, hm, _⟩
        rw [hk] at hm; cases hm
    | some y =>
      have goal_eq : keyMax? (k :: ks') = if bytesLt k y then some y else some k := by
        simp [keyMax?, hk]
      rcases List.mem_cons.mp h with rfl | hx'
      · by_cases hlt : bytesLt x y = true
        · exact ⟨y, by rw [goal_eq, if_pos hlt], bytesLe_of_lt hlt⟩
        · have hlt' : bytesLt x y = false := by simpa using hlt
          exact ⟨x, by rw [goal_eq, if_neg (by simp [hlt'])], bytesLe_refl x⟩
      · rcases keyMax?_ub hx' with ⟨m, hm, hxm⟩
        rw [hk] at hm
        injection hm with hm2
        subst hm2
        by_cases hlt : bytesLt k y = true
        · exact ⟨y, by rw [goal_eq, if_pos hlt], hxm⟩
        · have hlt' : bytesLt k y = false := by simpa using hlt
          exact ⟨k, by rw [goal_eq, if_neg (by simp [hlt'])],
            bytesLe_trans hxm (bytesLe_of_not_lt hlt')⟩

theorem keyMin?_lb : ∀ {ks : List Key} {x : Key}, x ∈ ks →
    ∃ m, keyMin? ks = some m ∧ bytesLe m x = true
  | [], x, h => by cases h
  | k :: ks', x, h => by
    cases hk : keyMin? ks' with
    | none =>
      rcases List.mem_cons.mp h with rfl | hx'
      · exact ⟨x, by simp [keyMin?, hk], bytesLe_refl x⟩
      · rcases keyMin?_lb hx' with ⟨m, hm, _⟩
        rw [hk] at hm; cases hm
    | some y =>
      have goal_eq : keyMin? (k :: ks') = if bytesLt y k then some y else some k := by
        simp [keyMin?, hk]
      rcases List.mem_cons.mp h with rfl | hx'
      · by_cases hlt : bytesLt y x = true
        · exact ⟨y, by rw [goal_eq, if_pos hlt], bytesLe_of_lt hlt⟩
        · have hlt' : bytesLt y x = false := by simpa using hlt
          exact ⟨x, by rw [goal_eq, if_neg (by simp [hlt'])], bytesLe_refl x⟩
      · rcases keyMin?_lb hx' with ⟨m, hm, hmx⟩
        rw [hk] at hm
        injection hm with hm2
        subst hm2
        by_cases hlt : bytesLt y k = true
        · exact ⟨y, by rw [goal_eq, if_pos hlt], hmx⟩
        · have hlt' : bytesLt y k = false := by simpa using hlt
          exact ⟨k, by rw [goal_eq, if_neg (by simp [hlt'])],
            bytesLe_trans (bytesLe_of_not_lt hlt') hmx⟩

/-! Characterization of `resolvePrefixWith` by the matching range. -/

theorem resolvePrefixWith_char {V U : Type} (idx : IdIndex V) (q : HexQuery) (f : V → U) :
    (resolvePrefixRange idx q = [] ∧
      resolvePrefixWith idx q f = PrefixResolution.NoMatch) ∨
    (∃ k₀ v₀ rest, resolvePrefixRange idx q = (k₀, v₀) :: rest ∧
      (((∀ e ∈ resolvePrefixRange idx q, e.1 = k₀) ∧
        resolvePrefixWith idx q f =
          PrefixResolution.SingleMatch ((resolvePrefixRange idx q).map (fun e => f e.2))) ∨
       ((∃ e ∈ resolvePrefixRange idx q, e.1 ≠ k₀) ∧
        resolvePrefixWith idx q f = PrefixResolution.AmbiguousMatch))) := by
  cases hr : resolvePrefixRange idx q with
  | nil => exact Or.inl ⟨rfl, by simp [resolvePrefixWith, hr]⟩
  | cons e rest =>
    obtain ⟨k₀, v₀⟩ := e
    refine Or.inr ⟨k₀, v₀, rest, rfl, ?_⟩
    by_cases hall : ∀ e ∈ ((k₀, v₀) :: rest : List (Key × V)), e.1 = k₀
    · refine Or.inl ⟨hall, ?_⟩
      have hm := mapM_option_eq_some_map (l := ((k₀, v₀) :: rest : List (Key × V)))
        (f := fun e => if e.1 = k₀ then some (f e.2) else none) (g := fun e => f e.2)
        (fun e he => by simp [hall e he])
      simp only [resolvePrefixWith, hr, hm]
    · push_neg at hall
      rcases hall with ⟨e, he, hne⟩
      refine Or.inr ⟨⟨e, he, hne⟩, ?_⟩
      have hm := mapM_option_eq_none (l := ((k₀, v₀) :: rest : List (Key × V)))
        (f := fun e => if e.1 = k₀ then some (f e.2) else none) he (by simp [hne])
      simp only [resolvePrefixWith, hr, hm]

/-! Claims C1, C5, C10, C8, C9. -/

/-- Claim C1: for a non-empty matching range, `resolvePrefixWith` returns
`SingleMatch` carrying one mapped value per matched entry (duplicates
included, in index order) exactly when every matched entry's key equals
the key of the first matched entry, and returns `AmbiguousMatch` whenever
some matched entry's key differs from that reference key, however many
distinct keys appear. -/
theorem c1_resolve_with_unambiguous {V U : Type} (idx : IdIndex V) (q : HexQuery)
    (f : V → U) (k₀ : Key) (v₀ : V) (rest : List (Key × V))
    (h : resolvePrefixRange idx q = (k₀, v₀) :: rest) :
    (resolvePrefixWith idx q f =
        PrefixResolution.SingleMatch ((resolvePrefixRange idx q).map (fun e => f e.2)) ↔
      ∀ e ∈ resolvePrefixRange idx q, e.1 = k₀) ∧
    ((∃ e ∈ resolvePrefixRange idx q, e.1 ≠ k₀) →
      resolvePrefixWith idx q f = PrefixResolution.AmbiguousMatch) := by
  rcases resolvePrefixWith_char idx q f with ⟨hnil, _⟩ | ⟨k₀', v₀', rest', heq, hd⟩
  · rw [h] at hnil; cases hnil
  · rw [h] at heq
    injection heq with h1 h2
    injection h1 with hk hv
    subst hk
    rcases hd with ⟨hall, hsingle⟩ | ⟨⟨e, he, hne⟩, hamb⟩
    · refine ⟨⟨fun _ => hall, fun _ => hsingle⟩, ?_⟩
      rintro ⟨e, he, hne⟩
      exact absurd (hall e he) hne
    · refine ⟨⟨?_, fun hall => absurd (hall e he) hne⟩, fun _ => hamb⟩
      intro hs
      rw [hamb] at hs
      cases hs

/-- Witness for C1: at the test index, query 009 matches exactly the two
entries keyed 0099 and resolves to a `SingleMatch` of both mapped values. -/
theorem c1_witness :
    resolvePrefixWith exampleIdx [0, 0, 9] (fun v => v + 1) =
      PrefixResolution.SingleMatch [2, 3] := by
  have h := (c1_resolve_with_unambiguous exampleIdx [0, 0, 9] (fun v => v + 1)
    [0x00, 0x99] 1 [([0x00, 0x99], 2)] (by decide)).1.mpr (by decide)
  rw [h]
  decide

/-- Claim C5: `resolvePrefix` returns `NoMatch` precisely when the
matching range is empty. -/
theorem c5_no_match_iff_empty_range {V : Type} (idx : IdIndex V) (q : HexQuery) :
    resolvePrefix idx q = PrefixResolution.NoMatch ↔ resolvePrefixRange idx q = [] := by
  unfold resolvePrefix
  rcases resolvePrefixWith_char idx q (fun v => v) with ⟨hnil, hno⟩ |
    ⟨k₀, v₀, rest, heq, hd⟩
  · exact ⟨fun _ => hnil, fun _ => hno⟩
  · constructor
    · intro hs
      rcases hd with ⟨_, hsingle⟩ | ⟨_, hamb⟩
      · rw [hsingle] at hs; cases hs
      · rw [hamb] at hs; cases hs
    · intro hnil
      rw [hnil] at heq; cases heq

/-- Claim C10: the outcome variant of `resolvePrefixWith` (and the length
of a `SingleMatch` payload) is determined by the keys of the matching
range alone, never by the values or by the value mapper. -/
theorem c10_mapper_noninterference {V U W : Type} (idx : IdIndex V) (q : HexQuery)
    (f : V → U) (g : V → W) :
    (resolvePrefixWith idx q f = PrefixResolution.NoMatch ↔
      resolvePrefixWith idx q g = PrefixResolution.NoMatch) ∧
    (resolvePrefixWith idx q f = PrefixResolution.AmbiguousMatch ↔
      resolvePrefixWith idx q g = PrefixResolution.AmbiguousMatch) ∧
    (∀ vs, resolvePrefixWith idx q f = PrefixResolution.SingleMatch vs →
      ∃ ws, resolvePrefixWith idx q g = PrefixResolution.SingleMatch ws ∧
        ws.length = vs.length) := by
  rcases resolvePrefixWith_char idx q f with ⟨hnilf, hnof⟩ | ⟨k₀, v₀, rest, heq, hdf⟩
  · rcases resolvePrefixWith_char idx q g with ⟨_, hnog⟩ | ⟨k₀, v₀, rest, heq, _⟩
    · refine ⟨⟨fun _ => hnog, fun _ => hnof⟩, ?_, ?_⟩
      · constructor
        · intro h; rw [hnof] at h; cases h
        · intro h; rw [hnog] at h; cases h
      · intro vs h; rw [hnof] at h; cases h
    · rw [hnilf] at heq; cases heq
  · rcases resolvePrefixWith_char idx q g with ⟨hnil, _⟩ | ⟨k₀', v₀', rest', heq', hdg⟩
    · rw [hnil] at heq; cases heq
    · rw [heq] at heq'
      injection heq' with h1 h2
      injection h1 with hk hv
      subst hk
      have hexcl : ¬ ((∀ e ∈ resolvePrefixRange idx q, e.1 = k₀) ∧
          ∃ e ∈ resolvePrefixRange idx q, e.1 ≠ k₀) := by
        rintro ⟨hall, e, he, hne⟩
        exact absurd (hall e he) hne
      rcases hdf with ⟨hallf, hsf⟩ | ⟨hexf, haf⟩ <;>
        rcases hdg with ⟨hallg, hsg⟩ | ⟨hexg, hag⟩
      · refine ⟨?_, ?_, ?_⟩
        · constructor
          · intro h; rw [hsf] at h; cases h
          · intro h; rw [hsg] at h; cases h
        · constructor
          · intro h; rw [hsf] at h; cases h
          · intro h; rw [hsg] at h; cases h
        · intro vs h
          rw [hsf] at h
          injection h with hvs
          exact ⟨_, hsg, by rw [← hvs]; simp⟩
      · exact absurd ⟨hallf, hexg⟩ hexcl
      · exact absurd ⟨hallg, hexf⟩ hexcl
      · refine ⟨?_, ⟨fun _ => hag, fun _ => haf⟩, ?_⟩
        · constructor
          · intro h; rw [haf] at h; cases h
          · intro h; rw [hag] at h; cases h
        · intro vs h; rw [haf] at h; cases h

/-- Witness for C10: applying the noninterference theorem at the test
index with two different mappers; the second mapper also yields a
`SingleMatch` with a payload of the same length 2. -/
theorem c10_witness :
    ∃ ws, resolvePrefixWith exampleIdx [0, 0, 9] (fun v => v * 10) =
      PrefixResolution.SingleMatch ws ∧ ws.length = 2 := by
  rcases (c10_mapper_noninterference exampleIdx [0, 0, 9] (fun v => v + 1)
      (fun v => v * 10)).2.2 [2, 3] (by decide) with ⟨ws, hws, hlen⟩
  exact ⟨ws, hws, hlen⟩

/-- Claim C8: `fromVec` sorts the given batch ascending by key and keeps
it as a permutation of the input: nothing is deduplicated, dropped, or
added, so the sortedness invariant holds for every subsequent query. -/
theorem c8_fromVec_sorted_perm {V : Type} (l : List (Key × V)) :
    SortedByKey (fromVec l) ∧ (fromVec l).Perm l := by
  constructor
  · show List.Pairwise (fun a b => bytesLe a.1 b.1 = true)
      (l.mergeSort (fun a b => bytesLe a.1 b.1))
    exact List.sorted_mergeSort
      (fun a b c hab hbc => by exact bytesLe_trans hab hbc)
      (fun a b => by rcases bytesLe_total a.1 b.1 with h | h <;> simp [h])
      l
  · exact List.mergeSort_perm l _

/-- Claim C9: index construction always succeeds on any finite batch
(including the empty one), and every query operation is total, signalling
absence and ambiguity only through the `NoMatch` and `AmbiguousMatch`
outcome variants — in particular on the empty index. -/
theorem c9_operations_total (l : List (Key × Nat)) (q : HexQuery) (k : Key) :
    (fromVec l).length = l.length ∧
    resolvePrefixRange (fromVec ([] : List (Key × Nat))) q = [] ∧
    resolvePrefix (fromVec ([] : List (Key × Nat))) q = PrefixResolution.NoMatch ∧
    hasKey (fromVec ([] : List (Key × Nat))) k = false ∧
    shortestUniquePrefixLen (fromVec ([] : List (Key × Nat))) k = 0 ∧
    ∀ (idx : IdIndex Nat) (f : Nat → Nat),
      resolvePrefixWith idx q f = PrefixResolution.NoMatch ∨
      (∃ vs, resolvePrefixWith idx q f = PrefixResolution.SingleMatch vs) ∨
      resolvePrefixWith idx q f = PrefixResolution.AmbiguousMatch := by
  have hempty : fromVec ([] : List (Key × Nat)) = [] := List.mergeSort_nil
  refine ⟨(List.mergeSort_perm l _).length_eq, ?_, ?_, ?_, ?_, ?_⟩
  · rw [hempty]; rfl
  · rw [hempty]; rfl
  · rw [hempty]; rfl
  · rw [hempty]; rfl
  intro idx f
  rcases resolvePrefixWith_char idx q f with ⟨_, hno⟩ | ⟨k₀, v₀, rest, _, hd⟩
  · exact Or.inl hno
  · rcases hd with ⟨_, hs⟩ | ⟨_, ha⟩
    · exact Or.inr (Or.inl ⟨_, hs⟩)
    · exact Or.inr (Or.inr ha)

/-! The byte-aligned lower bound and the matching interval. -/

theorem bytesLt_nil_right (t : List Nat) : bytesLt t [] = false := by
  cases t <;> rfl

theorem hexDigits_packBytes : ∀ (l : List Nat), (∀ d ∈ l, d < 16) → l.length % 2 = 0 →
    hexDigits (packBytes l) = l
  | [], _, _ => rfl
  | [d], _, hlen => by simp at hlen
  | d0 :: d1 :: rest, hv, hlen => by
    have h1 : d1 < 16 := hv d1 (List.mem_cons_of_mem _ (List.mem_cons_self _ _))
    have hdiv : (d0 * 16 + d1) / 16 = d0 := by omega
    have hmod : (d0 * 16 + d1) % 16 = d1 := by omega
    have hrest : rest.length % 2 = 0 := by
      simp only [List.length_cons] at hlen
      omega
    simp only [packBytes, hexDigits, hdiv, hmod]
    rw [hexDigits_packBytes rest (fun d hd => hv d (by simp [hd])) hrest]

theorem hexDigits_minPrefixBytes {q : HexQuery} (hq : ValidQuery q) :
    hexDigits (minPrefixBytes q) = if q.length % 2 = 0 then q else q ++ [0] := by
  unfold minPrefixBytes
  by_cases he : q.length % 2 = 0
  · rw [if_pos he]
    exact hexDigits_packBytes q hq he
  · rw [if_neg he]
    apply hexDigits_packBytes
    · intro d hd
      rcases List.mem_append.mp hd with h | h
      · exact hq d h
      · simp only [List.mem_singleton] at h
        omega
    · simp only [List.length_append, List.length_singleton]
      omega

theorem minBytes_le_of_matches {q : HexQuery} {k : Key} (hq : ValidQuery q)
    (hm : hpMatches q k = true) : bytesLe (minPrefixBytes q) k = true := by
  have hpre : q <+: hexDigits k := List.isPrefixOf_iff_prefix.mp hm
  rw [← hexDigits_bytesLe, hexDigits_minPrefixBytes hq]
  by_cases he : q.length % 2 = 0
  · rw [if_pos he]
    exact bytesLe_of_prefix hpre
  · rw [if_neg he]
    rcases hpre with ⟨t, ht⟩
    rw [← ht]
    rcases t with _ | ⟨r, t2⟩
    · have hlen := congrArg List.length ht
      simp only [List.length_append, List.length_nil, hexDigits_length] at hlen
      omega
    · simp only [bytesLe]
      have hcancel : ∀ (u x y : List Nat), bytesLt (u ++ x) (u ++ y) = bytesLt x y := by
        intro u
        induction u with
        | nil => intro x y; rfl
        | cons a u2 ih => intro x y; simp [bytesLt, ih]
      rw [hcancel]
      have : bytesLt (r :: t2) [0] = false := by
        simp only [bytesLt]
        split_ifs with h1 h2
        · omega
        · rfl
        · exact bytesLt_nil_right t2
      rw [this]
      rfl

theorem not_matches_of_lt_min {q : HexQuery} {k : Key} (hq : ValidQuery q)
    (h : bytesLt k (minPrefixBytes q) = true) : hpMatches q k = false := by
  cases hm : hpMatches q k with
  | false => rfl
  | true =>
    have := bytesLt_eq_false_of_le (minBytes_le_of_matches hq hm)
    rw [this] at h
    cases h

theorem matches_of_le_le {q : HexQuery} {a b : Key} (hq : ValidQuery q)
    (h1 : bytesLe (minPrefixBytes q) a = true) (h2 : bytesLe a b = true)
    (hm : hpMatches q b = true) : hpMatches q a = true := by
  have hpre : q <+: hexDigits b := List.isPrefixOf_iff_prefix.mp hm
  have hq_le_min : bytesLe q (hexDigits (minPrefixBytes q)) = true := by
    rw [hexDigits_minPrefixBytes hq]
    by_cases he : q.length % 2 = 0
    · rw [if_pos he]; exact bytesLe_refl q
    · rw [if_neg he]; exact bytesLe_of_prefix (List.prefix_append q [0])
  have hmin_a : bytesLe (hexDigits (minPrefixBytes q)) (hexDigits a) = true := by
    rw [hexDigits_bytesLe]; exact h1
  have hab : bytesLe (hexDigits a) (hexDigits b) = true := by
    rw [hexDigits_bytesLe]; exact h2
  exact List.isPrefixOf_iff_prefix.mpr
    (prefix_of_le_le hpre (bytesLe_trans hq_le_min hmin_a) hab)

theorem range_eq_filter {V : Type} (idx : IdIndex V) (q : HexQuery)
    (hs : SortedByKey idx) (hq : ValidQuery q) :
    resolvePrefixRange idx q = idx.filter (fun e => hpMatches q e.1) := by
  unfold resolvePrefixRange partitionPoint
  rw [drop_length_takeWhile]
  conv_rhs =>
    rw [← List.takeWhile_append_dropWhile
      (p := fun e => bytesLt e.1 (minPrefixBytes q)) (l := idx)]
  rw [List.filter_append]
  have hT : (idx.takeWhile (fun e => bytesLt e.1 (minPrefixBytes q))).filter
      (fun e => hpMatches q e.1) = [] := by
    apply List.filter_eq_nil_iff.mpr
    intro e he
    have hp : bytesLt e.1 (minPrefixBytes q) = true := by
      simpa using List.mem_takeWhile_imp he
    rw [not_matches_of_lt_min hq hp]
    simp
  rw [hT, List.nil_append]
  apply takeWhile_eq_filter_of_antitone (R := fun a b => bytesLe a.1 b.1 = true)
  · exact hs.sublist (List.dropWhile_sublist _)
  · intro a b ha hb hab hmb
    exact matches_of_le_le hq (mem_dropWhile_ge hs a ha) hab hmb

theorem hasKey_iff {V : Type} (idx : IdIndex V) (key : Key) :
    hasKey idx key = true ↔ ∃ e ∈ idx, e.1 = key := by
  simp [hasKey, List.any_eq_true]

/-! Claims C4 and C7. -/

/-- Claim C4: for a sorted index and a well-formed query, the
binary-search-plus-forward-scan of `resolvePrefixRange` returns exactly
the entries whose key the query matches — all of them and no others, in
index (hence ascending key) order. -/
theorem c4_range_exactly_matching {V : Type} (idx : IdIndex V) (q : HexQuery)
    (hs : SortedByKey idx) (hq : ValidQuery q) :
    resolvePrefixRange idx q = idx.filter (fun e => hpMatches q e.1) ∧
    SortedByKey (resolvePrefixRange idx q) := by
  have h := range_eq_filter idx q hs hq
  exact ⟨h, by rw [h]; exact hs.sublist (List.filter_sublist _)⟩

/-- Witness for C4: at the test index, query 009 produces exactly the
filter of the matching predicate, namely the two entries keyed 0099. -/
theorem c4_witness :
    resolvePrefixRange exampleIdx [0, 0, 9] =
      exampleIdx.filter (fun e => hpMatches [0, 0, 9] e.1) ∧
    exampleIdx.filter (fun e => hpMatches [0, 0, 9] e.1) =
      [([0x00, 0x99], 1), ([0x00, 0x99], 2)] :=
  ⟨(c4_range_exactly_matching exampleIdx [0, 0, 9] (by decide) (by decide)).1, by decide⟩

/-- Claim C7: `hasKey` agrees with prefix resolution on full-length
queries: a key is present exactly when the query formed from all of its
hex digits matches at least one entry. -/
theorem c7_has_key_full_query {V : Type} (idx : IdIndex V) (k : Key)
    (hs : SortedByKey idx) (hv : ValidKey k)
    (hlen : ∀ e ∈ idx, e.1.length = k.length) :
    hasKey idx k = true ↔ resolvePrefixRange idx (hexDigits k) ≠ [] := by
  have hq : ValidQuery (hexDigits k) := validKey_hexDigits hv
  rw [range_eq_filter idx _ hs hq]
  constructor
  · intro hk
    rcases (hasKey_iff idx k).mp hk with ⟨e, he, hek⟩
    have hm : hpMatches (hexDigits k) e.1 = true := by
      rw [hek]
      exact List.isPrefixOf_iff_prefix.mpr (List.prefix_refl _)
    exact List.ne_nil_of_mem (List.mem_filter.mpr ⟨he, hm⟩)
  · intro hne
    rcases List.exists_mem_of_ne_nil _ hne with ⟨e, he⟩
    rcases List.mem_filter.mp he with ⟨hmem, hm⟩
    have hpre : hexDigits k <+: hexDigits e.1 := List.isPrefixOf_iff_prefix.mp hm
    have hlen2 : (hexDigits k).length = (hexDigits e.1).length := by
      rw [hexDigits_length, hexDigits_length, hlen e hmem]
    have : hexDigits k = hexDigits e.1 := hpre.eq_of_length hlen2
    exact (hasKey_iff idx k).mpr ⟨e, hmem, (hexDigits_inj this).symm⟩

/-- Witness for C7: the key 0099 is present in the test index, so its
full four-digit query matches a non-empty range. -/
theorem c7_witness :
    resolvePrefixRange exampleIdx (hexDigits [0x00, 0x99]) ≠ [] :=
  (c7_has_key_full_query exampleIdx [0x00, 0x99] (by decide) (by decide)
    (by decide)).mp (by decide)

/-! The neighbors computed by `shortest_unique_prefix_len` are the
semantic sorted neighbors of the key. -/

theorem keyMax?_cons_isSome (x : Key) (xs : List Key) : ∃ m, keyMax? (x :: xs) = some m := by
  simp only [keyMax?]
  cases keyMax? xs with
  | none => exact ⟨x, rfl⟩
  | some y =>
    by_cases h : bytesLt x y = true
    · exact ⟨y, by simp [h]⟩
    · exact ⟨x, by simp [h]⟩

theorem keyMax?_of_sorted : ∀ {ks : List Key},
    List.Pairwise (fun a b => bytesLe a b = true) ks → keyMax? ks = ks.getLast?
  | [], _ => rfl
  | [x], _ => rfl
  | x :: y :: t, hs => by
    rcases List.pairwise_cons.mp hs with ⟨hx, hs2⟩
    have ih := keyMax?_of_sorted hs2
    rcases keyMax?_cons_isSome y t with ⟨m, hm⟩
    have hxm : bytesLe x m = true := hx m (keyMax?_mem hm)
    have hlast : (y :: t).getLast? = some m := by rw [← ih]; exact hm
    rw [List.getLast?_cons_cons, hlast]
    show (match keyMax? (y :: t) with
      | none => some x
      | some z => if bytesLt x z = true then some z else some x) = some m
    rw [hm]
    simp only
    by_cases hlt : bytesLt x m = true
    · rw [if_pos hlt]
    · rw [if_neg hlt]
      have hlt2 : bytesLt x m = false := by simpa using hlt
      rw [bytesLt_conn hlt2 (bytesLt_eq_false_of_le hxm)]

theorem map_fst_takeWhile {V : Type} (p : Key → Bool) : ∀ (l : List (Key × V)),
    (l.takeWhile (fun e => p e.1)).map Prod.fst = (l.map Prod.fst).takeWhile p
  | [] => rfl
  | e :: t => by
    cases hp : p e.1 <;>
      simp [List.takeWhile_cons, hp, map_fst_takeWhile p t]

theorem map_commonHexLen {V : Type} (key : Key) : ∀ (l : List (Key × V)),
    l.map (fun e => commonHexLen key e.1 + 1) =
      (l.map Prod.fst).map (fun n => commonHexLen key n + 1)
  | [] => rfl
  | e :: t => by simp [map_commonHexLen key t]

theorem option_toList_map {α β : Type} (f : α → β) (o : Option α) :
    (o.map f).toList = o.toList.map f := by
  cases o <;> rfl

theorem suplLeft_eq_getLast_takeWhile {V : Type} (idx : IdIndex V) (key : Key) :
    suplLeft idx key = (idx.takeWhile (fun e => bytesLt e.1 key)).getLast? := by
  unfold suplLeft partitionPoint
  cases hpos : (idx.takeWhile (fun e => bytesLt e.1 key)).length with
  | zero =>
    rw [List.length_eq_zero] at hpos
    rw [hpos]
    rfl
  | succ p =>
    rw [List.getLast?_eq_getElem?, hpos]
    simp only [Nat.add_sub_cancel]
    conv_lhs =>
      rw [← List.takeWhile_append_dropWhile (p := fun e => bytesLt e.1 key) (l := idx)]
    rw [List.getElem?_append, if_pos (by rw [hpos]; omega)]

theorem suplLeft_eq_maxBelow {V : Type} (idx : IdIndex V) (key : Key)
    (hs : SortedByKey idx) :
    (suplLeft idx key).map Prod.fst = maxBelow idx key := by
  have hks : List.Pairwise (fun a b => bytesLe a b = true) (idx.map Prod.fst) :=
    hs.map _ (fun a b h => h)
  rw [suplLeft_eq_getLast_takeWhile, ← List.getLast?_map,
    map_fst_takeWhile (fun x => bytesLt x key) idx]
  rw [takeWhile_eq_filter_of_antitone hks
    (fun a b _ _ hab hbk => bytesLt_of_le_of_lt hab hbk)]
  unfold maxBelow
  rw [keyMax?_of_sorted (hks.sublist (List.filter_sublist _))]

theorem find?_ne_eq_keyMin {V : Type} {key : Key} : ∀ {l : List (Key × V)},
    List.Pairwise (fun a b => bytesLe a.1 b.1 = true) l →
    (∀ e ∈ l, bytesLe key e.1 = true) →
    (l.find? (fun e => !(e.1 == key))).map Prod.fst =
      keyMin? ((l.map Prod.fst).filter (fun x => bytesLt key x))
  | [], _, _ => rfl
  | e :: t, hs, hge => by
    rcases List.pairwise_cons.mp hs with ⟨he, hs2⟩
    by_cases heq : e.1 = key
    · have hbeq : (!(e.1 == key)) = false := by simp [heq]
      have hflt : bytesLt key e.1 = false := by rw [heq]; exact bytesLt_irrefl key
      simp only [List.find?_cons, hbeq, List.map_cons, List.filter_cons, hflt,
        Bool.false_eq_true, if_false]
      exact find?_ne_eq_keyMin hs2 (fun x hx => hge x (List.mem_cons_of_mem _ hx))
    · have hbeq : (!(e.1 == key)) = true := by simp [heq]
      have hlt : bytesLt key e.1 = true :=
        bytesLt_of_le_of_ne (hge e (List.mem_cons_self _ _)) (fun h => heq h.symm)
      simp only [List.find?_cons, hbeq, List.map_cons, List.filter_cons, hlt, if_true]
      cases hk : keyMin? ((t.map Prod.fst).filter (fun x => bytesLt key x)) with
      | none => simp [keyMin?, hk]
      | some m =>
        have hmem := keyMin?_mem hk
        rcases List.mem_filter.mp hmem with ⟨hmm, _⟩
        rcases List.mem_map.mp hmm with ⟨b, hb, hbm⟩
        have hem : bytesLe e.1 m = true := by rw [← hbm]; exact he b hb
        have hnlt : bytesLt m e.1 = false := bytesLt_eq_false_of_le hem
        simp [keyMin?, hk, hnlt]

theorem suplRight_eq_minAbove {V : Type} (idx : IdIndex V) (key : Key)
    (hs : SortedByKey idx) :
    (suplRight idx key).map Prod.fst = minAbove idx key := by
  unfold suplRight partitionPoint
  rw [drop_length_takeWhile]
  rw [find?_ne_eq_keyMin (hs.sublist (List.dropWhile_sublist _))
    (fun e he => mem_dropWhile_ge hs e he)]
  unfold minAbove
  congr 1
  conv_rhs =>
    rw [← List.takeWhile_append_dropWhile (p := fun e => bytesLt e.1 key) (l := idx)]
  rw [List.map_append, List.filter_append]
  have hT : ((idx.takeWhile (fun e => bytesLt e.1 key)).map Prod.fst).filter
      (fun x => bytesLt key x) = [] := by
    apply List.filter_eq_nil_iff.mpr
    intro x hx
    rcases List.mem_map.mp hx with ⟨e, he, hex⟩
    have hp : bytesLt e.1 key = true := by simpa using List.mem_takeWhile_imp he
    rw [← hex, bytesLt_asymm hp]
    simp
  rw [hT, List.nil_append]

theorem supl_eq_spec {V : Type} (idx : IdIndex V) (key : Key) (hs : SortedByKey idx) :
    shortestUniquePrefixLen idx key = suplSpec idx key := by
  unfold shortestUniquePrefixLen suplSpec suplNeighbors
  rw [map_commonHexLen, List.map_append, ← option_toList_map, ← option_toList_map,
    suplLeft_eq_maxBelow idx key hs, suplRight_eq_minAbove idx key hs]

/-! Claims C2 and C3. -/

/-- Claim C2: for every sorted index and every key, present or absent,
`shortestUniquePrefixLen` equals the maximum, over the at most two
existing semantic neighbors of the key's sorted insertion position (the
largest key strictly less and the smallest key strictly greater, entries
equal to the key skipped), of one plus the longest common leading
hex-digit run with the key; it is 0 when no other-keyed neighbor exists,
including the empty index and an index holding only entries equal to the
key. -/
theorem c2_supl_eq_neighbor_formula {V : Type} (idx : IdIndex V) (key : Key)
    (hs : SortedByKey idx) :
    shortestUniquePrefixLen idx key = suplSpec idx key :=
  supl_eq_spec idx key hs

/-- Witness for C2: at the duplicate-key test index the implementation
and the neighbor formula agree on the present key acd0, both giving 2. -/
theorem c2_witness :
    shortestUniquePrefixLen exampleIdx2 [0xac, 0xd0] = suplSpec exampleIdx2 [0xac, 0xd0] ∧
    suplSpec exampleIdx2 [0xac, 0xd0] = 2 :=
  ⟨c2_supl_eq_neighbor_formula exampleIdx2 [0xac, 0xd0] (by decide), by decide⟩

/-- Claim C3: if a neighbor key considered by `shortestUniquePrefixLen`
has the key as a strict leading-digit prefix of itself, the result is the
key's digit length plus one — strictly more digits than the key has, not
capped at the key's digit length. -/
theorem c3_prefix_neighbor_overflow {V : Type} (idx : IdIndex V) (key : Key)
    (e : Key × V) (he : e ∈ suplNeighbors idx key)
    (hpre : hexDigits key <+: hexDigits e.1)
    (hlonger : (hexDigits key).length < (hexDigits e.1).length) :
    shortestUniquePrefixLen idx key = (hexDigits key).length + 1 := by
  unfold shortestUniquePrefixLen
  apply foldr_max_eq_of_mem_of_ub
  · have hcom : commonHexLen key e.1 + 1 = (hexDigits key).length + 1 := by
      unfold commonHexLen
      rw [commonLen_of_leadingRun hpre]
    rw [← hcom]
    exact List.mem_map_of_mem _ he
  · intro x hx
    rcases List.mem_map.mp hx with ⟨b, hb, hbx⟩
    rw [← hbx]
    have := commonLen_le_left (hexDigits key) (hexDigits b.1)
    unfold commonHexLen
    omega

/-- Witness for C3: in the duplicate-key test index the right neighbor of
the absent key ac is acd0, which extends ac, so the shortest unique
length is 3 — one more digit than ac itself has. -/
theorem c3_witness :
    shortestUniquePrefixLen exampleIdx2 [0xac] = (hexDigits [0xac]).length + 1 ∧
    (hexDigits [0xac]).length + 1 = 3 :=
  ⟨c3_prefix_neighbor_overflow exampleIdx2 [0xac] ([0xac, 0xd0], 1) (by decide)
    (by decide) (by decide), by decide⟩

/-! No entry other than the neighbors shares a longer common run: the
candidate of any other-keyed entry is bounded by the result. -/

theorem candidate_le_supl {V : Type} {idx : IdIndex V} {key : Key} {e : Key × V}
    (hs : SortedByKey idx) (he : e ∈ idx) (hne : e.1 ≠ key) :
    commonHexLen key e.1 + 1 ≤ shortestUniquePrefixLen idx key := by
  rw [supl_eq_spec idx key hs]
  have htri : bytesLt e.1 key = true ∨ bytesLt key e.1 = true := by
    cases h1 : bytesLt e.1 key with
    | true => exact Or.inl rfl
    | false =>
      cases h2 : bytesLt key e.1 with
      | true => exact Or.inr rfl
      | false => exact absurd (bytesLt_conn h1 h2) hne
  unfold suplSpec
  rcases htri with hlt | hgt
  · have hmem : e.1 ∈ (idx.map Prod.fst).filter (fun x => bytesLt x key) :=
      List.mem_filter.mpr ⟨List.mem_map_of_mem _ he, hlt⟩
    rcases keyMax?_ub hmem with ⟨m, hm, hem⟩
    have hmB : maxBelow idx key = some m := hm
    have hmk : bytesLt m key = true := (List.mem_filter.mp (keyMax?_mem hm)).2
    have hcom : commonHexLen key e.1 ≤ commonHexLen key m := by
      have h1 : bytesLe (hexDigits e.1) (hexDigits m) = true := by
        rw [hexDigits_bytesLe]; exact hem
      have h2 : bytesLe (hexDigits m) (hexDigits key) = true := by
        rw [hexDigits_bytesLe]; exact bytesLe_of_lt hmk
      have hmid := (commonLen_middle h1 h2).1
      unfold commonHexLen
      rw [commonLen_comm (hexDigits key) (hexDigits e.1),
        commonLen_comm (hexDigits key) (hexDigits m)]
      exact hmid
    have hin : commonHexLen key m + 1 ∈
        (((maxBelow idx key).toList ++ (minAbove idx key).toList).map
          (fun n => commonHexLen key n + 1)) := by
      apply List.mem_map_of_mem
      rw [hmB]
      exact List.mem_append_left _ (by simp)
    have := le_foldr_max_of_mem hin
    omega
  · have hmem : e.1 ∈ (idx.map Prod.fst).filter (fun x => bytesLt key x) :=
      List.mem_filter.mpr ⟨List.mem_map_of_mem _ he, hgt⟩
    rcases keyMin?_lb hmem with ⟨m, hm, hme⟩
    have hmA : minAbove idx key = some m := hm
    have hkm : bytesLt key m = true := (List.mem_filter.mp (keyMin?_mem hm)).2
    have hcom : commonHexLen key e.1 ≤ commonHexLen key m := by
      have h1 : bytesLe (hexDigits key) (hexDigits m) = true := by
        rw [hexDigits_bytesLe]; exact bytesLe_of_lt hkm
      have h2 : bytesLe (hexDigits m) (hexDigits e.1) = true := by
        rw [hexDigits_bytesLe]; exact hme
      exact (commonLen_middle h1 h2).2
    have hin : commonHexLen key m + 1 ∈
        (((maxBelow idx key).toList ++ (minAbove idx key).toList).map
          (fun n => commonHexLen key n + 1)) := by
      apply List.mem_map_of_mem
      rw [hmA]
      exact List.mem_append_right _ (by simp)
    have := le_foldr_max_of_mem hin
    omega

/-! Claim C6. -/

/-- Claim C6: for a sorted index of fixed-length identifiers and any
present key, the query made of the first `shortestUniquePrefixLen`
leading digits of the key resolves to a non-empty range containing only
entries keyed exactly by it. -/
theorem c6_shortest_prefix_resolves {V : Type} (idx : IdIndex V) (key : Key)
    (hs : SortedByKey idx) (hv : ValidKey key)
    (hlen : ∀ e ∈ idx, e.1.length = key.length)
    (hk : hasKey idx key = true) :
    resolvePrefixRange idx
      ((hexDigits key).take (shortestUniquePrefixLen idx key)) ≠ [] ∧
    ∀ e ∈ resolvePrefixRange idx
      ((hexDigits key).take (shortestUniquePrefixLen idx key)), e.1 = key := by
  set n := shortestUniquePrefixLen idx key with hn
  set q := (hexDigits key).take n with hq
  have hvq : ValidQuery q := fun d hd =>
    validKey_hexDigits hv d (List.take_subset n (hexDigits key) hd)
  have hrange := range_eq_filter idx q hs hvq
  have hmk : hpMatches q key = true :=
    List.isPrefixOf_iff_prefix.mpr (by rw [hq]; exact List.take_prefix n _)
  constructor
  · rcases (hasKey_iff idx key).mp hk with ⟨e, he, hek⟩
    rw [hrange]
    exact List.ne_nil_of_mem (List.mem_filter.mpr ⟨he, by rw [hek]; exact hmk⟩)
  · intro e he
    rw [hrange] at he
    rcases List.mem_filter.mp he with ⟨hmem, hm⟩
    by_contra hne
    have hcand : commonHexLen key e.1 + 1 ≤ n := candidate_le_supl hs hmem hne
    have hpre : q <+: hexDigits e.1 := List.isPrefixOf_iff_prefix.mp hm
    by_cases hsize : n ≤ (hexDigits key).length
    · have hql : q.length = n := by
        rw [hq, List.length_take]
        omega
      have hpre_k : q <+: hexDigits key := by rw [hq]; exact List.take_prefix _ _
      have hboth := le_commonLen_of_leadingRun_both hpre_k hpre
      unfold commonHexLen at hcand
      omega
    · have hqall : q = hexDigits key := by
        rw [hq]
        exact List.take_of_length_le (by omega)
      have hlen2 : (hexDigits key).length = (hexDigits e.1).length := by
        rw [hexDigits_length, hexDigits_length, hlen e hmem]
      have hpre2 : hexDigits key <+: hexDigits e.1 := by rw [← hqall]; exact hpre
      exact hne (hexDigits_inj (hpre2.eq_of_length hlen2)).symm

/-- Witness for C6: the key 0099 of the test index needs 3 digits; the
range of the three-digit query 009 is non-empty (and keyed only 0099). -/
theorem c6_witness :
    resolvePrefixRange exampleIdx
      ((hexDigits [0x00, 0x99]).take (shortestUniquePrefixLen exampleIdx [0x00, 0x99]))
      ≠ [] :=
  (c6_shortest_prefix_resolves exampleIdx [0x00, 0x99] (by decide) (by decide)
    (by decide) (by decide)).1

end IdPrefix
